import Mathlib

/-!
Verification development for the `norml` YAML normalizer.

The Go sources are shallowly embedded below:
* `sorter.go` (key comparator `sortMapKeys` / `mapKeys.Less` / `num` / `numLess` /
  `stringNaturalLess`),
* `normalizer.go` (`normalizeNode`, `Normalize`, `NormalizeFile`,
  `normalizeFileSmall`, `normalizeFileLarge`, `normalizeToFile`),
* `cmd/norml/main.go` (the combined-mode output sequencer of `normalizeTo`).

Modelling conventions:
* Go `int64` arithmetic is embedded as `Int` with an explicit wrap at `2^64`
  (`wrap64`), never as a fixed-width bit-vector type.
* `unicode.IsDigit` / `unicode.IsLetter` are embedded by their restrictions to
  ASCII (`Char.isDigit` / `Char.isAlpha`); theorems about the string comparison
  are stated for inputs on which this restriction is faithful.
* `float64` values decoded from YAML are embedded with exact rational payloads;
  none of the properties settled here depends on rounding.
* `sort.Stable` is embedded as the canonical stable insertion sort `isort`,
  which realizes `sort.Stable`'s documented contract (ascending per `Less`,
  ties keep original order).
* External collaborators (the YAML decoder/encoder, the filesystem) are
  parameters (`Codec`, decode oracles, an association-list file system), with
  their contracts appearing as explicit hypotheses of the theorems.
-/

/-! ## Stable sort (model of Go `sort.Stable`) -/

/-- Stable insertion of `x` into a sorted list: `x` moves past `y` only when
`less y x`, so ties keep the earlier element first. -/
def insertStable (less : α → α → Bool) (x : α) : List α → List α
  | [] => [x]
  | y :: ys => if less y x then y :: insertStable less x ys else x :: y :: ys

/-- Stable insertion sort: the model of `sort.Stable` from Go's sort package. -/
def isort (less : α → α → Bool) : List α → List α
  | [] => []
  | x :: xs => insertStable less x (isort less xs)

/-- An `Asym`metric comparator: `less a b` and `less b a` never both hold. -/
def Asym (less : α → α → Bool) : Prop :=
  ∀ a b, less a b = true → less b a = false

/-- Adjacent-sortedness: no adjacent inversion according to `less`. -/
def AdjSorted (less : α → α → Bool) (l : List α) : Prop :=
  List.Chain' (fun u v => less v u = false) l

/-! ## `stringNaturalLess` (sorter.go lines 111-161)

Runes are embedded as `Char`; `unicode.IsDigit` / `unicode.IsLetter` are
embedded by their ASCII restrictions `Char.isDigit` / `Char.isAlpha`.  Go
`int64` accumulation `an = an*10 + int64(a[ai]-'0')` is embedded over `Int`
with an explicit wrap at `2^64`. -/

/-- Two-complement wrap of an integer into the `int64` range, the semantics of
Go's wrapping signed arithmetic. -/
def wrap64 (x : Int) : Int :=
  (x + 2 ^ 63) % 2 ^ 64 - 2 ^ 63

/-- One step of the digit-run accumulation `an = an*10 + int64(c-'0')`. -/
def digitStep (acc : Int) (c : Char) : Int :=
  wrap64 (acc * 10 + ((c.toNat : Int) - 48))

/-- The leading-zero adjustment of sorter.go lines 137-145: when either
differing rune is `'0'`, scan backwards over the digits of the common prefix;
finding a non-`'0'` digit there seeds both accumulators with `1`. -/
def snlSeedN (revPre : List Char) (x y : Char) : Nat :=
  if (x = '0' ∨ y = '0') ∧ (revPre.takeWhile Char.isDigit).any (· ≠ '0')
  then 1 else 0

/-- The comparison performed at the first differing rune.  `revPre` is the
common prefix already scanned, in reverse order (so its head is the rune just
before the differing position); `digits` is the sorter's flag: whether that
last common rune was a digit. -/
def snlCompare (revPre : List Char) (digits : Bool) : List Char → List Char → Bool
  | x :: xs, y :: ys =>
    if x.isAlpha && y.isAlpha then decide (x < y)
    else if x.isAlpha || y.isAlpha then
      (if digits then x.isAlpha else y.isAlpha)
    else
      let seed : Int := (snlSeedN revPre x y : Int)
      let ra := (x :: xs).takeWhile Char.isDigit
      let rb := (y :: ys).takeWhile Char.isDigit
      let an := ra.foldl digitStep seed
      let bn := rb.foldl digitStep seed
      if an ≠ bn then decide (an < bn)
      else if ra.length ≠ rb.length then decide (ra.length < rb.length)
      else decide (x < y)
  | _, _ => false

/-- The common-prefix scan of `stringNaturalLess`: consume equal runes,
tracking the reversed prefix and the `digits` flag; on exhaustion compare
lengths, otherwise hand over to `snlCompare`. -/
def snlLoop (revPre : List Char) (digits : Bool) : List Char → List Char → Bool
  | x :: xs, y :: ys =>
    if x = y then snlLoop (x :: revPre) x.isDigit xs ys
    else snlCompare revPre digits (x :: xs) (y :: ys)
  | as, bs => decide (as.length < bs.length)

/-- Function `stringNaturalLess` from sorter.go. -/
def stringNaturalLess (a b : List Char) : Bool :=
  snlLoop [] false a b

/-! ## The dynamic key values and the comparator (sorter.go lines 36-109)

`sortMapKeys` decodes each key node into a Go `any` and wraps it in a
`reflect.Value`.  The dynamic values the YAML decoder can produce are embedded
as `DynValue`; `vnil` is the zero `reflect.Value` (kind `Invalid`) that results
when `n.Decode(&value)` fails and `value` stays `nil`.  `deref` is the
identity on these values (the decoder never produces pointers). -/

inductive DynValue where
  | vnil
  | vbool (b : Bool)
  | vint (n : Int)
  | vint64 (n : Int)
  | vuint64 (n : Nat)
  | vfloat (q : Rat)
  | vmap
  | vslice
  | vstring (s : List Char)
  deriving DecidableEq, Repr

/-- The `reflect.Kind` rank of each dynamic value (`Invalid`=0, `Bool`=1,
`Int`=2, `Int64`=6, `Uint64`=11, `Float64`=14, `Map`=21, `Slice`=23,
`String`=24). -/
def kindRank : DynValue → Nat
  | .vnil => 0
  | .vbool _ => 1
  | .vint _ => 2
  | .vint64 _ => 6
  | .vuint64 _ => 11
  | .vfloat _ => 14
  | .vmap => 21
  | .vslice => 23
  | .vstring _ => 24

/-- Function `num(v)` from sorter.go: the numeric value as a `float64` (embedded
exactly over `ℚ`) together with the `ok` flag, as an `Option`. -/
def numVal : DynValue → Option Rat
  | .vbool b => some (if b then 1 else 0)
  | .vint n => some (n : Rat)
  | .vint64 n => some (n : Rat)
  | .vuint64 n => some (n : Rat)
  | .vfloat q => some q
  | _ => none

/-- Function `numLess(a, b)` from sorter.go: type-specific comparison of two numeric
values of the same kind.  `none` embeds the `panic("not a number")` default
branch (and the kind-mismatched accessor panics), which `mapLess_total` below
shows to be unreachable. -/
def numLess : DynValue → DynValue → Option Bool
  | .vint a, .vint b => some (decide (a < b))
  | .vint64 a, .vint64 b => some (decide (a < b))
  | .vuint64 a, .vuint64 b => some (decide (a < b))
  | .vfloat a, .vfloat b => some (decide (a < b))
  | .vbool a, .vbool b => some (!a && b)
  | _, _ => none

/-- Method `mapKeys.Less` from sorter.go, on the dereferenced dynamic values: both
numeric → compare numeric value, then kind rank, then `numLess`; both strings →
`stringNaturalLess`; otherwise compare kind ranks. -/
def mapLess (a b : DynValue) : Option Bool :=
  match numVal a, numVal b with
  | some x, some y =>
    if x ≠ y then some (decide (x < y))
    else if kindRank a ≠ kindRank b then some (decide (kindRank a < kindRank b))
    else numLess a b
  | _, _ =>
    match a, b with
    | .vstring s, .vstring t => some (stringNaturalLess s t)
    | _, _ => some (decide (kindRank a < kindRank b))

/-- The total comparator actually used for sorting; the `getD` default is
never taken, as the totality theorem for the comparator shows. -/
def mapLessB (a b : DynValue) : Bool :=
  (mapLess a b).getD false

/-! ## The common-prefix scan, characterized -/

/-- The value of the sorter's `digits` flag after scanning the common prefix
`p` starting from flag value `d`: the flag records only whether the **last**
rune of the common prefix is a digit. -/
def lastDigitFlag (p : List Char) (d : Bool) : Bool :=
  match p.getLast? with
  | some c => c.isDigit
  | none => d

/-! ## Arbitrary-precision digit-run values versus the wrapping accumulator -/

/-- The digit-run value as an arbitrary-precision natural number: the
comparison the specification describes. -/
def digitsToNat (l : List Char) (seed : Nat) : Nat :=
  l.foldl (fun acc c => acc * 10 + (c.toNat - 48)) seed

/-- The decimal digits of `2^63 = 9223372036854775808`. -/
def dec63 : List Char :=
  ['9', '2', '2', '3', '3', '7', '2', '0', '3', '6', '8', '5', '4', '7', '7',
   '5', '8', '0', '8']

/-! ## The YAML node tree (`yaml.Node`) and `sortMapKeys` / `normalizeNode`

`yaml.Node` is embedded with the fields the normalizer reads or writes:
kind, style, tag, value, anchor, the three comment fields, and the content
list.  A Go `[]*yaml.Node` slice may hold nil pointers, so the content
argument of `sortMapKeys` is a `List (Option Node)`; a decoded document
never contains nil children, so `Node.content` itself is a `List Node`. -/

inductive NodeKind where
  | documentNode
  | sequenceNode
  | mappingNode
  | scalarNode
  | aliasNode
  deriving DecidableEq, Repr

inductive Node where
  | mk (kind : NodeKind) (style : Nat) (tag : String) (value : String)
      (anchor : String) (headComment : String) (lineComment : String)
      (footComment : String) (content : List Node)

def Node.kind : Node → NodeKind
  | .mk k _ _ _ _ _ _ _ _ => k

def Node.style : Node → Nat
  | .mk _ s _ _ _ _ _ _ _ => s

def Node.content : Node → List Node
  | .mk _ _ _ _ _ _ _ _ c => c

def defaultNode : Node := .mk .scalarNode 0 "" "" "" "" "" "" []

instance : Inhabited Node := ⟨defaultNode⟩

/-- Structure `mapKey` from sorter.go: the original entry index paired with the decoded
dynamic key value. -/
structure MapKey where
  index : Nat
  value : DynValue
  deriving DecidableEq, Repr

instance : Inhabited MapKey := ⟨⟨0, .vnil⟩⟩

/-- Key decoding `var value any; n.Decode(&value); key.value = reflect.ValueOf(value)`:
the external YAML decode of a key node, as a parameter `dk`; `dk n = none`
models a failed decode, whose error `sortMapKeys` discards, leaving `value`
`nil` — the invalid `reflect.Value` `vnil`.  A nil node pointer also yields
`vnil` (Go would panic; decoded mappings have no nil children). -/
def keyValue (dk : Node → Option DynValue) : Option Node → DynValue
  | some nd => (dk nd).getD DynValue.vnil
  | none => DynValue.vnil

/-- Comparator `mapKeys.Less` lifted to `mapKey` entries: only the decoded values are
compared, never the indices, so equal keys keep their original order under
the stable sort. -/
def lessKey (a b : MapKey) : Bool :=
  mapLessB a.value b.value

/-- Function `sortMapKeys` from sorter.go: decode the key of each of the
`len(content)/2` entries, stable-sort the keys, and gather key/value pairs
into a fresh slice of the same length; the slots of `newContent` beyond
`2*entries` are never written and stay nil. -/
def sortMapKeys (dk : Node → Option DynValue) (content : List (Option Node)) :
    List (Option Node) :=
  let entries := content.length / 2
  let keys : List MapKey :=
    (List.range entries).map fun i => ⟨i, keyValue dk (content.getD (2 * i) none)⟩
  let sorted := isort lessKey keys
  (List.range content.length).map fun j =>
    if j / 2 < entries then
      content.getD (2 * (sorted.getD (j / 2) default).index + j % 2) none
    else none

/-- Function `sortMapKeys` as applied by `normalizeNode` to the (nil-free) content of
a decoded mapping node; on the even-length content of a well-formed mapping
the result contains no nil slot, and `reduceOption` is the identity
embedding back into `List Node`. -/
def sortMapKeysN (dk : Node → Option DynValue) (content : List Node) : List Node :=
  (sortMapKeys dk (content.map some)).reduceOption

/-- Function `normalizeNode` from normalizer.go: reset style, strip comments unless
`preserveComments`, normalize children, then sort mapping entries. -/
def normalizeNode (dk : Node → Option DynValue) (pc : Bool) : Node → Node
  | .mk kind _ tag value anchor hc lc fc content =>
    let hc2 := if pc then hc else ""
    let lc2 := if pc then lc else ""
    let fc2 := if pc then fc else ""
    let newContent := content.attach.map (fun c => normalizeNode dk pc c.1)
    let sortedContent :=
      if kind = .mappingNode then sortMapKeysN dk newContent else newContent
    .mk kind 0 tag value anchor hc2 lc2 fc2 sortedContent
  decreasing_by
    have h := List.sizeOf_lt_of_mem c.2
    simp only [Node.mk.sizeOf_spec]
    omega

/-! ## The pairs view of mapping content -/

/-- Mapping content as a list of key/value pairs. -/
def pairsOf : List α → List (α × α)
  | x :: y :: rest => (x, y) :: pairsOf rest
  | _ => []

def flattenPairs : List (α × α) → List α
  | [] => []
  | (x, y) :: rest => x :: y :: flattenPairs rest

/-- The reordering `sortMapKeys` performs, expressed on key/value pairs:
build the indexed key list, stable-sort it, and gather the pairs in sorted
key order. -/
def gatherPairs (dk : Node → Option DynValue) (ps : List (Node × Node)) :
    List (Node × Node) :=
  let keys : List MapKey :=
    (List.range ps.length).map fun i => ⟨i, keyValue dk (some (ps.getD i default).1)⟩
  (isort lessKey keys).map fun k => ps.getD k.index default

/-! ## The stream processor `Normalize` (normalizer.go)

The external YAML library is a parameter: `decodeStream` is the decoder
(`yaml.NewDecoder` + repeated `Decode` until EOF or error), `encodeDocs` the
bytes an encoder with 2-space indent writes for a sequence of `Encode` calls
(document separators included), `closeBytes` the bytes of the stream
finalization `enc.Close()`, and `decodeKey` the `Decode` used on key nodes by
the sorter.  The byte alphabet is abstracted by `β`. -/

structure Codec (β : Type) where
  decodeStream : List β → List Node × Option String
  encodeDocs : List Node → List β
  closeBytes : List β
  decodeKey : Node → Option DynValue

/-- Function `Normalize` from normalizer.go: decode documents one at a time, then
normalize and encode each; the `wrote` flag (here: `docs` nonempty) guards the
encoder finalization `enc.Close()`.  A decode failure aborts with an error;
this model returns the error without the bytes already produced. -/
def Normalize (C : Codec β) (pc : Bool) (input : List β) : Except String (List β) :=
  match C.decodeStream input with
  | (_, some e) => .error e
  | (docs, none) =>
    if docs.isEmpty then .ok []
    else .ok (C.encodeDocs (docs.map (normalizeNode C.decodeKey pc)) ++ C.closeBytes)

/-- A codec over `β := Node` whose decoder sees every byte as one document:
the simplest codec satisfying the round-trip laws. -/
def idCodec : Codec Node where
  decodeStream := fun bs => (bs, none)
  encodeDocs := fun ds => ds
  closeBytes := []
  decodeKey := fun _ => none

/-! ## Claims C2 and C9 -/

/-- A malformed key node: a scalar tagged `!!int` whose text is not a
number — `Decode` into `any` fails on it. -/
def badKeyNode : Node := .mk .scalarNode 0 "!!int" "abc" "" "" "" "" []

def goodKeyNode : Node := .mk .scalarNode 0 "!!str" "zzz" "" "" "" "" []

def valNode1 : Node := .mk .scalarNode 0 "!!str" "v1" "" "" "" "" []

def valNode2 : Node := .mk .scalarNode 0 "!!str" "v2" "" "" "" "" []

/-- An example of the external key decoder: fails on the malformed
`!!int abc` scalar, decodes `!!str` scalars to their string value. -/
def exampleDecode : Node → Option DynValue
  | .mk _ _ t v _ _ _ _ _ =>
    if t = "!!int" then none else some (.vstring v.toList)

/-! ## The combined-mode sequencer (cmd/norml/main.go, `normalizeTo`)

Workers emit `(inputIndex, bytes)` results in arbitrary completion order to a
single channel; the reader goroutine holds out-of-order arrivals in the
`results` map and flushes to the output strictly in ascending index order,
writing the `---\n` separator between consecutive documents and never before
the first.  The map is embedded as an association list with Go-map semantics
(assign replaces, lookup finds, delete removes); the flush loop runs at most
`pending.length` iterations, since each iteration deletes a present key. -/

def lookupA (k : Nat) (m : List (Nat × List Nat)) : Option (List Nat) :=
  (m.find? (fun p => p.1 == k)).map (fun p => p.2)

def eraseA (k : Nat) : List (Nat × List Nat) → List (Nat × List Nat)
  | [] => []
  | p :: rest => if p.1 == k then rest else p :: eraseA k rest

structure SeqState where
  nextIndex : Nat
  pending : List (Nat × List Nat)
  out : List Nat

/-- The document separator line `---\n` written between consecutive files. -/
def sepBytes : List Nat := [45, 45, 45, 10]

/-- The flush loop body of the reader:
`for doc, exists := results[nextIndex]; exists; doc, exists = results[nextIndex]`. -/
def flushN : Nat → SeqState → SeqState
  | 0, s => s
  | fuel + 1, s =>
    match lookupA s.nextIndex s.pending with
    | none => s
    | some doc =>
      flushN fuel
        { nextIndex := s.nextIndex + 1,
          pending := eraseA s.nextIndex s.pending,
          out := s.out ++ (if s.nextIndex > 0 then sepBytes else []) ++ doc }

def flush (s : SeqState) : SeqState := flushN s.pending.length s

/-- One arrival at the sequencer: `results[result.index] = result.content`,
then flush if it was the next expected index. -/
def seqStep (s : SeqState) (r : Nat × List Nat) : SeqState :=
  let s2 : SeqState :=
    { s with pending := (r.1, r.2) :: eraseA r.1 s.pending }
  if r.1 = s.nextIndex then flush s2 else s2

def initialSeq : SeqState := ⟨0, [], []⟩

def runSequencer (arrivals : List (Nat × List Nat)) : SeqState :=
  arrivals.foldl seqStep initialSeq

/-- The expected combined output: the per-file canonical results in input
order, separator between consecutive files, never before the first. -/
def sepConcat : List (List Nat) → List Nat
  | [] => []
  | d :: rest => d ++ (rest.map (fun x => sepBytes ++ x)).join

/-- The sequencer invariant, relative to the set `A` (as a list) of indices
whose results have arrived and the per-file canonical results `canon`:
`nextIndex` is the least index not yet arrived, the holding map holds exactly
the arrived indices at or beyond it, each with its canonical bytes, and the
output holds the documents `0, …, nextIndex-1` in order with separators. -/
structure SeqInv (canon : Nat → List Nat) (A : List Nat) (s : SeqState) : Prop where
  gap_lt : ∀ k, k < s.nextIndex → k ∈ A
  gap_notin : s.nextIndex ∉ A
  nodup : (s.pending.map Prod.fst).Nodup
  look : ∀ k, lookupA k s.pending
    = if k ∈ A ∧ s.nextIndex ≤ k then some (canon k) else none
  out_eq : s.out = sepConcat ((List.range s.nextIndex).map canon)

/-! ## The file pipeline (normalizer.go: `NormalizeFile` and helpers)

The filesystem is an association map from path to file data (content bytes
and POSIX mode bits).  `OpenFile(p, O_CREATE|O_TRUNC|O_WRONLY, mode)` on an
existing path truncates it and keeps its existing mode bits — the mode
argument applies only on creation; `Rename` moves the file data, mode bits
included.  I/O failures are injected through an `IOOracle`; `partialBytes`
is whatever the buffered writer managed to put down when a flush fails or an
error interrupts the stream. -/

structure FileData where
  data : List Nat
  mode : Nat
  deriving DecidableEq, Repr

abbrev FS := List (String × FileData)

def fsGet (name : String) (fs : FS) : Option FileData :=
  (fs.find? (fun p => p.1 == name)).map (fun p => p.2)

def fsSet (name : String) (fd : FileData) : FS → FS
  | [] => [(name, fd)]
  | p :: rest => if p.1 == name then (name, fd) :: rest else p :: fsSet name fd rest

def fsErase (name : String) : FS → FS
  | [] => []
  | p :: rest => if p.1 == name then rest else p :: fsErase name rest

structure IOOracle where
  openOk : Bool
  flushOk : Bool
  closeOk : Bool
  renameOk : Bool
  readOk : Bool
  partialBytes : List Nat

/-- The result of `os.OpenFile(name, O_CREATE|O_TRUNC|O_WRONLY, mode)`:
truncate an existing file keeping its mode, or create with `mode`. -/
def openTrunc (fs : FS) (name : String) (mode : Nat) : FileData :=
  match fsGet name fs with
  | some fd => { fd with data := [] }
  | none => ⟨[], mode⟩

/-- Function `normalizeToFile` from normalizer.go: open/truncate the destination with
the given mode, run `Normalize` into the buffered writer, then flush and
close (the deferred flush also runs on the error path, writing whatever was
buffered). -/
def normalizeToFile (C : Codec Nat) (pc : Bool) (oracle : IOOracle)
    (fs : FS) (input : List Nat) (name : String) (mode : Nat) :
    FS × Option String :=
  if !oracle.openOk then (fs, some "failed to open file for writing")
  else
    let fd0 := openTrunc fs name mode
    match Normalize C pc input with
    | .error e => (fsSet name { fd0 with data := oracle.partialBytes } fs, some e)
    | .ok out =>
      if !oracle.flushOk then
        (fsSet name { fd0 with data := oracle.partialBytes } fs, some "flush failed")
      else if !oracle.closeOk then
        (fsSet name { fd0 with data := out } fs, some "close failed")
      else (fsSet name { fd0 with data := out } fs, none)

/-- The temporary path `filepath.Join(filepath.Dir(filename), ".tmp_"+filepath.Base(filename))`
for a file in the current directory. -/
def tmpName (name : String) : String := ".tmp_" ++ name

/-- Function `normalizeFileLarge` from normalizer.go: stream the source through
`normalizeToFile` into the temporary file, then atomically rename it over
the original. -/
def normalizeFileLarge (C : Codec Nat) (pc : Bool) (oracle : IOOracle)
    (fs : FS) (name : String) (mode : Nat) : FS × Option String :=
  if !oracle.readOk then (fs, some "failed to read file")
  else
    match fsGet name fs with
    | none => (fs, some "failed to read file")
    | some src =>
      match normalizeToFile C pc oracle fs src.data (tmpName name) mode with
      | (fs2, some e) => (fs2, some e)
      | (fs2, none) =>
        if !oracle.renameOk then (fs2, some "failed to replace original file")
        else
          match fsGet (tmpName name) fs2 with
          | none => (fs2, some "failed to replace original file")
          | some tfd => (fsSet name tfd (fsErase (tmpName name) fs2), none)

/-- Function `normalizeFileSmall` from normalizer.go: read into memory, then rewrite
the same path in place through `normalizeToFile`. -/
def normalizeFileSmall (C : Codec Nat) (pc : Bool) (oracle : IOOracle)
    (fs : FS) (name : String) (mode : Nat) : FS × Option String :=
  if !oracle.readOk then (fs, some "failed to read file")
  else
    match fsGet name fs with
    | none => (fs, some "failed to read file")
    | some src => normalizeToFile C pc oracle fs src.data name mode

def largeFileThreshold : Nat := 1048576

/-- Function `NormalizeFile` from normalizer.go: stat, writability check (mode bit
0200), then the size-based strategy choice. -/
def NormalizeFile (C : Codec Nat) (pc : Bool) (oracle : IOOracle)
    (fs : FS) (name : String) : FS × Option String :=
  match fsGet name fs with
  | none => (fs, some "failed to stat file")
  | some fd =>
    if fd.mode &&& 128 = 0 then (fs, some "file to normalize is not writable")
    else if fd.data.length ≤ largeFileThreshold then
      normalizeFileSmall C pc oracle fs name fd.mode
    else normalizeFileLarge C pc oracle fs name fd.mode

/-- A degenerate byte codec whose decoder yields no documents: enough to
drive the file pipeline at concrete inputs. -/
def emptyCodec : Codec Nat where
  decodeStream := fun _ => ([], none)
  encodeDocs := fun _ => []
  closeBytes := []
  decodeKey := fun _ => none

/-- A filesystem with a >1MiB file of mode 0644 (420) and a stale temporary
file of mode 0400 (256) left at the `.tmp_` path. -/
def staleTmpFS : FS :=
  [("a", ⟨List.replicate 1048577 0, 420⟩), (".tmp_a", ⟨[], 256⟩)]

theorem insertStable_perm (less : α → α → Bool) (x : α) (l : List α) :
    List.Perm (insertStable less x l) (x :: l) := by
  induction l with
  | nil => simp [insertStable]
  | cons y ys ih =>
    simp only [insertStable]
    by_cases h : less y x = true
    · simp only [h, if_pos]
      exact ((ih.cons y).trans (List.Perm.swap x y ys))
    · simp [h]

theorem isort_perm (less : α → α → Bool) (l : List α) :
    List.Perm (isort less l) l := by
  induction l with
  | nil => simp [isort]
  | cons x xs ih =>
    exact (insertStable_perm less x (isort less xs)).trans (ih.cons x)

theorem adjSorted_insertStable (less : α → α → Bool) (hA : Asym less) (x : α)
    (l : List α) (hl : AdjSorted less l) : AdjSorted less (insertStable less x l) := by
  induction l with
  | nil => simp [insertStable, AdjSorted]
  | cons y ys ih =>
    simp only [insertStable]
    by_cases h : less y x = true
    · simp only [h, if_pos]
      have hys : AdjSorted less ys := (List.chain'_cons'.mp hl).2
      have htail := ih hys
      refine List.chain'_cons'.mpr ⟨?_, htail⟩
      intro z hz
      cases ys with
      | nil =>
        simp [insertStable] at hz
        subst hz
        exact hA y x h
      | cons w ws =>
        simp only [insertStable] at hz
        by_cases h2 : less w x = true
        · simp only [h2, if_pos] at hz
          simp only [Option.mem_def, List.head?_cons, Option.some_inj] at hz
          subst hz
          exact (List.chain'_cons.mp hl).1
        · simp only [h2, if_neg, Bool.not_eq_true] at hz
          simp only [Option.mem_def, List.head?_cons, Option.some_inj] at hz
          subst hz
          exact hA y x h
    · simp only [h, if_neg, Bool.not_eq_true]
      refine List.chain'_cons'.mpr ⟨?_, hl⟩
      intro z hz
      simp only [Option.mem_def, List.head?_cons, Option.some_inj] at hz
      subst hz
      simpa using h

theorem adjSorted_isort (less : α → α → Bool) (hA : Asym less) (l : List α) :
    AdjSorted less (isort less l) := by
  induction l with
  | nil => simp [isort, AdjSorted]
  | cons x xs ih => exact adjSorted_insertStable less hA x (isort less xs) ih

theorem insertStable_of_adjHead (less : α → α → Bool) (x : α) (l : List α)
    (h : ∀ y ∈ l.head?, less y x = false) : insertStable less x l = x :: l := by
  cases l with
  | nil => simp [insertStable]
  | cons y ys =>
    have : less y x = false := h y (by simp)
    simp [insertStable, this]

/-- Sorting an adjacent-sorted list is the identity. -/
theorem isort_of_adjSorted (less : α → α → Bool) (l : List α)
    (hl : AdjSorted less l) : isort less l = l := by
  induction l with
  | nil => simp [isort]
  | cons x xs ih =>
    have hxs : AdjSorted less xs := (List.chain'_cons'.mp hl).2
    have hrec : isort less xs = xs := ih hxs
    simp only [isort, hrec]
    exact insertStable_of_adjHead less x xs (List.chain'_cons'.mp hl).1

/-! ## Character facts -/

theorem isDigit_toNat {c : Char} (h : c.isDigit = true) :
    48 ≤ c.toNat ∧ c.toNat ≤ 57 := by
  simp only [Char.isDigit, Bool.and_eq_true, decide_eq_true_eq, ge_iff_le,
    UInt32.le_def, BitVec.le_def] at h
  simp only [Char.toNat, UInt32.toNat] at h ⊢
  have h48 : ((48 : UInt32).toBitVec).toNat = 48 := rfl
  have h57 : ((57 : UInt32).toBitVec).toNat = 57 := rfl
  omega

theorem isDigit_not_isAlpha {c : Char} (h : c.isDigit = true) :
    c.isAlpha = false := by
  simp only [Char.isDigit, Bool.and_eq_true, decide_eq_true_eq, ge_iff_le,
    UInt32.le_def, BitVec.le_def] at h
  simp only [Char.isAlpha, Char.isUpper, Char.isLower, Bool.or_eq_false_iff,
    Bool.and_eq_false_iff, ge_iff_le, decide_eq_false_iff_not, not_le,
    UInt32.le_def, UInt32.lt_def, BitVec.le_def, BitVec.lt_def]
  have h48 : ((48 : UInt32).toBitVec).toNat = 48 := rfl
  have h57 : ((57 : UInt32).toBitVec).toNat = 57 := rfl
  have h65 : ((65 : UInt32).toBitVec).toNat = 65 := rfl
  have h90 : ((90 : UInt32).toBitVec).toNat = 90 := rfl
  have h97 : ((97 : UInt32).toBitVec).toNat = 97 := rfl
  have h122 : ((122 : UInt32).toBitVec).toNat = 122 := rfl
  omega

theorem lastDigitFlag_cons (c : Char) (p : List Char) (d : Bool) :
    lastDigitFlag (c :: p) d = lastDigitFlag p c.isDigit := by
  cases p with
  | nil => simp [lastDigitFlag]
  | cons e p =>
    simp only [lastDigitFlag, List.getLast?_cons_cons]
    cases h : (e :: p).getLast? with
    | none =>
      have hs : (e :: p).getLast?.isSome = true := by
        rw [List.getLast?_isSome]
        simp
      rw [h] at hs
      simp at hs
    | some v => simp [h]

/-- Running the common-prefix scan over `p ++ x :: xs` versus `p ++ y :: ys`
with `x ≠ y` consumes exactly `p` and hands over to `snlCompare` with the
reversed prefix and the last-rune digit flag. -/
theorem snlLoop_append (p : List Char) : ∀ (revPre : List Char) (d : Bool)
    (x y : Char) (xs ys : List Char), x ≠ y →
    snlLoop revPre d (p ++ x :: xs) (p ++ y :: ys) =
      snlCompare (p.reverse ++ revPre) (lastDigitFlag p d) (x :: xs) (y :: ys) := by
  induction p with
  | nil =>
    intro revPre d x y xs ys hxy
    simp [snlLoop, lastDigitFlag, hxy]
  | cons c p ih =>
    intro revPre d x y xs ys hxy
    simp only [List.cons_append, snlLoop, if_pos rfl, lastDigitFlag_cons,
      List.append_eq]
    rw [if_pos trivial, ih (c :: revPre) c.isDigit x y xs ys hxy]
    simp [List.reverse_cons, List.append_assoc]

/-! ## Asymmetry of the comparator

`mapKeys.Less` is asymmetric: `Less a b` and `Less b a` never both hold.
This is what makes re-sorting already-sorted mapping content a no-op. -/

theorem snlSeedN_comm (revPre : List Char) (x y : Char) :
    snlSeedN revPre y x = snlSeedN revPre x y := by
  simp [snlSeedN, or_comm]

theorem snlCompare_asym : ∀ (revPre : List Char) (d : Bool) (a b : List Char),
    snlCompare revPre d a b = true → snlCompare revPre d b a = false := by
  intro revPre d a b h
  cases a with
  | nil => simp [snlCompare] at h
  | cons x xs =>
    cases b with
    | nil => simp [snlCompare] at h
    | cons y ys =>
      simp only [snlCompare] at h ⊢
      by_cases hx : x.isAlpha = true <;> by_cases hy : y.isAlpha = true
      · have hxy : x < y := by simpa [hx, hy] using h
        simp [hx, hy, lt_asymm hxy]
      · rw [Bool.not_eq_true] at hy
        cases d <;> simp_all
      · rw [Bool.not_eq_true] at hx
        cases d <;> simp_all
      · rw [Bool.not_eq_true] at hx
        rw [Bool.not_eq_true] at hy
        simp only [hx, hy, Bool.and_self, Bool.false_and, Bool.and_false,
          Bool.or_self, Bool.false_eq_true, if_false] at h ⊢
        rw [snlSeedN_comm revPre x y]
        set an := (List.takeWhile Char.isDigit (x :: xs)).foldl digitStep
          ((snlSeedN revPre x y : Nat) : Int) with han
        set bn := (List.takeWhile Char.isDigit (y :: ys)).foldl digitStep
          ((snlSeedN revPre x y : Nat) : Int) with hbn
        by_cases h1 : an = bn
        · simp only [h1, ne_eq, not_true_eq_false, if_false, ite_self] at h ⊢
          by_cases h2 : (List.takeWhile Char.isDigit (x :: xs)).length =
              (List.takeWhile Char.isDigit (y :: ys)).length
          · simp only [h2, ne_eq, not_true_eq_false, if_false, ite_self,
              decide_eq_true_eq] at h
            simp [h2, lt_asymm h]
          · simp only [ne_eq, h2, not_false_eq_true, if_true,
              decide_eq_true_eq] at h
            have h2s : ¬ (List.takeWhile Char.isDigit (y :: ys)).length =
                (List.takeWhile Char.isDigit (x :: xs)).length := fun he => h2 he.symm
            simp [h2s, lt_asymm h]
        · simp only [ne_eq, h1, not_false_eq_true, if_true, decide_eq_true_eq] at h
          have h1s : ¬ bn = an := fun he => h1 he.symm
          simp [h1s, lt_asymm h]

theorem snlLoop_asym : ∀ (a b revPre : List Char) (d : Bool),
    snlLoop revPre d a b = true → snlLoop revPre d b a = false := by
  intro a
  induction a with
  | nil =>
    intro b revPre d h
    cases b with
    | nil => simp [snlLoop] at h
    | cons y ys => simp [snlLoop]
  | cons x xs ih =>
    intro b revPre d h
    cases b with
    | nil => simp [snlLoop] at h
    | cons y ys =>
      simp only [snlLoop] at h ⊢
      by_cases hxy : x = y
      · subst hxy
        rw [if_pos rfl] at h ⊢
        exact ih ys (x :: revPre) x.isDigit h
      · have hyx : ¬ y = x := fun he => hxy he.symm
        rw [if_neg hxy] at h
        rw [if_neg hyx]
        exact snlCompare_asym revPre d (x :: xs) (y :: ys) h

theorem stringNaturalLess_asym (s t : List Char)
    (h : stringNaturalLess s t = true) : stringNaturalLess t s = false :=
  snlLoop_asym s t [] false h

theorem mapLess_total (a b : DynValue) : ∃ r : Bool, mapLess a b = some r := by
  cases a <;> cases b <;>
    simp only [mapLess, numVal, numLess, kindRank] <;>
    first
      | exact ⟨_, rfl⟩
      | (split_ifs <;> first | exact ⟨_, rfl⟩ | omega)

theorem mapLess_asym (a b : DynValue) (h : mapLess a b = some true) :
    mapLess b a = some false := by
  cases a <;> cases b <;>
    simp only [mapLess, numVal, numLess, kindRank, Option.some.injEq] at h ⊢ <;>
    first
      | exact stringNaturalLess_asym _ _ h
      | (exact absurd h (by decide))
      | ((try split_ifs at h ⊢) <;> simp_all <;> first | rfl | linarith | omega)
      | simp_all

theorem mapLessB_asym : Asym mapLessB := by
  intro a b h
  unfold mapLessB at h ⊢
  obtain ⟨r, hr⟩ := mapLess_total a b
  rw [hr] at h
  simp only [Option.getD_some] at h
  subst h
  rw [mapLess_asym a b hr]
  rfl

theorem wrap64_eq_self {x : Int} (h0 : 0 ≤ x) (h1 : x < 2 ^ 63) :
    wrap64 x = x := by
  unfold wrap64
  have : (x + 2 ^ 63) % 2 ^ 64 = x + 2 ^ 63 := Int.emod_eq_of_lt (by omega) (by omega)
  omega

theorem le_digitsToNat (l : List Char) (s : Nat) : s ≤ digitsToNat l s := by
  induction l generalizing s with
  | nil => simp [digitsToNat]
  | cons c l ih =>
    have h1 : s ≤ s * 10 + (c.toNat - 48) := by omega
    exact h1.trans (ih (s * 10 + (c.toNat - 48)))

/-- While the arbitrary-precision value stays below `2^63`, the wrapping
`int64` accumulator of sorter.go computes it exactly. -/
theorem foldl_digitStep_eq (l : List Char) (s : Nat)
    (hd : ∀ c ∈ l, c.isDigit = true)
    (hlt : digitsToNat l s < 2 ^ 63) :
    l.foldl digitStep (s : Int) = (digitsToNat l s : Int) := by
  induction l generalizing s with
  | nil => simp [digitsToNat]
  | cons c l ih =>
    have hc : c.isDigit = true := hd c (by simp)
    have h48 : 48 ≤ c.toNat := (isDigit_toNat hc).1
    have hstep : digitStep (s : Int) c = ((s * 10 + (c.toNat - 48) : Nat) : Int) := by
      unfold digitStep
      have hcast : (s : Int) * 10 + ((c.toNat : Int) - 48)
          = ((s * 10 + (c.toNat - 48) : Nat) : Int) := by
        push_cast [Nat.cast_sub h48]
        ring
      rw [hcast]
      have hle : (s * 10 + (c.toNat - 48) : Nat) ≤ digitsToNat l (s * 10 + (c.toNat - 48)) :=
        le_digitsToNat l _
      have hlt2 : digitsToNat l (s * 10 + (c.toNat - 48)) < 2 ^ 63 := by
        simpa [digitsToNat] using hlt
      exact wrap64_eq_self (by positivity) (by exact_mod_cast lt_of_le_of_lt hle hlt2)
    calc (c :: l).foldl digitStep (s : Int)
        = l.foldl digitStep (digitStep (s : Int) c) := by simp [List.foldl_cons]
      _ = l.foldl digitStep ((s * 10 + (c.toNat - 48) : Nat) : Int) := by rw [hstep]
      _ = (digitsToNat l (s * 10 + (c.toNat - 48)) : Int) := by
          refine ih _ (fun e he => hd e (by simp [he])) ?_
          simpa [digitsToNat] using hlt
      _ = (digitsToNat (c :: l) s : Int) := by simp [digitsToNat]

/-! ## Claims C3, C4, C10 -/

/-- C10: whenever `mapKeys.Less` invokes `numLess`, both arguments have the
same kind, accepted by the `num` classifier, so the `panic("not a number")`
branch is unreachable: the comparator is total on every pair of decoded key
values (`none` in `mapLess`/`numLess` marks the panic). -/
theorem claim_C10_comparator_never_panics (a b : DynValue) :
    ∃ r : Bool, mapLess a b = some r :=
  mapLess_total a b

/-- C3 counterexample: in `"1a5"` versus `"1ax"` the common prefix is `"1a"`,
which contains the digit run `"1"`; at the differing position `'5'` is a digit
and `'x'` a letter.  The claim predicts the letter side `"1ax"` to sort first
(a digit run was matched earlier in the common prefix), but the code sorts the
digit side `"1a5"` first, because its `digits` flag only remembers the rune
immediately before the differing position (`'a'`, not a digit). -/
theorem claim_C3_counterexample :
    ('1').isDigit = true ∧ ('a').isDigit = false ∧
    ('5').isDigit = true ∧ ('x').isAlpha = true ∧
    stringNaturalLess ['1', 'a', '5'] ['1', 'a', 'x'] = true ∧
    stringNaturalLess ['1', 'a', 'x'] ['1', 'a', '5'] = false := by
  decide

/-- C3 (amended): at the first differing rune, with one side a letter and the
other a digit, the outcome depends only on whether the rune immediately
preceding the differing position (the last rune of the common prefix) is a
digit: if it is, the letter side sorts first, otherwise the digit side sorts
first. -/
theorem claim_C3_letter_digit_tiebreak (p : List Char) (x y : Char)
    (xs ys : List Char) (hxy : x ≠ y) (hx : x.isAlpha = true)
    (hy : y.isDigit = true) :
    stringNaturalLess (p ++ x :: xs) (p ++ y :: ys) = lastDigitFlag p false ∧
    stringNaturalLess (p ++ y :: ys) (p ++ x :: xs) = !(lastDigitFlag p false) := by
  have hyA : y.isAlpha = false := isDigit_not_isAlpha hy
  have hyx : y ≠ x := fun h => hxy h.symm
  unfold stringNaturalLess
  rw [snlLoop_append p [] false x y xs ys hxy,
    snlLoop_append p [] false y x ys xs hyx]
  constructor
  · simp only [snlCompare, hx, hyA, Bool.true_and, Bool.and_false,
      Bool.false_eq_true, if_false, Bool.true_or, Bool.or_false, if_true]
    cases lastDigitFlag p false <;> simp [hx, hyA]
  · simp only [snlCompare, hx, hyA, Bool.false_and, Bool.and_true,
      Bool.false_eq_true, if_false, Bool.or_true, Bool.false_or, if_true]
    cases lastDigitFlag p false <;> simp [hx, hyA]

/-- Witness for the amended C3: in `"1z"` versus `"15"` the rune before the
differing position is the digit `'1'`, so the letter side `"1z"` sorts
first. -/
theorem claim_C3_letter_digit_tiebreak_witness :
    stringNaturalLess ['1', 'z'] ['1', '5'] = true ∧
    stringNaturalLess ['1', '5'] ['1', 'z'] = false := by
  have h := claim_C3_letter_digit_tiebreak ['1'] 'z' '5' [] []
    (by decide) (by decide) (by decide)
  simpa [lastDigitFlag] using h

set_option maxRecDepth 4000 in
/-- C4 counterexample: the 19-digit run `9223372036854775808` (`= 2^63`)
overflows the `int64` accumulator to a negative value, so the code sorts it
before `"1"`; comparing the runs as arbitrarily-large integers would sort
`"1"` first.  The digit runs are compared incorrectly, refuting "no
fixed-width overflow". -/
theorem claim_C4_counterexample :
    digitsToNat dec63 0 = 9223372036854775808 ∧
    digitsToNat ['1'] 0 = 1 ∧
    stringNaturalLess dec63 ['1'] = true ∧
    stringNaturalLess ['1'] dec63 = false := by
  decide

/-- C4 (amended): digit runs are accumulated with wrapping 64-bit arithmetic;
whenever both accumulated values stay below `2^63` (no overflow), the runs at
the differing position are compared by their arbitrary-precision numeric
values, then by run length, and the rune comparison is used only when both
are equal. -/
theorem claim_C4_digit_runs (p : List Char) (x y : Char) (xs ys : List Char)
    (hxy : x ≠ y) (hx : x.isAlpha = false) (hy : y.isAlpha = false)
    (hva : digitsToNat ((x :: xs).takeWhile Char.isDigit)
      (snlSeedN p.reverse x y) < 2 ^ 63)
    (hvb : digitsToNat ((y :: ys).takeWhile Char.isDigit)
      (snlSeedN p.reverse x y) < 2 ^ 63) :
    stringNaturalLess (p ++ x :: xs) (p ++ y :: ys) =
      (if digitsToNat ((x :: xs).takeWhile Char.isDigit) (snlSeedN p.reverse x y)
          ≠ digitsToNat ((y :: ys).takeWhile Char.isDigit) (snlSeedN p.reverse x y)
       then decide (digitsToNat ((x :: xs).takeWhile Char.isDigit) (snlSeedN p.reverse x y)
          < digitsToNat ((y :: ys).takeWhile Char.isDigit) (snlSeedN p.reverse x y))
       else if ((x :: xs).takeWhile Char.isDigit).length
          ≠ ((y :: ys).takeWhile Char.isDigit).length
       then decide (((x :: xs).takeWhile Char.isDigit).length
          < ((y :: ys).takeWhile Char.isDigit).length)
       else decide (x < y)) := by
  unfold stringNaturalLess
  rw [snlLoop_append p [] false x y xs ys hxy]
  simp only [snlCompare, hx, hy, Bool.and_self, Bool.false_and, Bool.and_false,
    Bool.or_self, Bool.false_eq_true, if_false, List.append_nil]
  rw [foldl_digitStep_eq _ _ (fun c hc => List.mem_takeWhile_imp hc) hva,
    foldl_digitStep_eq _ _ (fun c hc => List.mem_takeWhile_imp hc) hvb]
  simp [Nat.cast_inj, Nat.cast_lt]

/-- Witness for the amended C4: `"2"` versus `"10"`: run values 2 and 10, no
overflow, so `"2"` sorts first. -/
theorem claim_C4_digit_runs_witness :
    stringNaturalLess ['2'] ['1', '0'] = true := by
  have h := claim_C4_digit_runs [] '2' '1' [] ['0']
    (by decide) (by decide) (by decide) (by decide) (by decide)
  simpa using h

theorem pairsOf_length : ∀ (c : List α), (pairsOf c).length = c.length / 2
  | [] => by simp [pairsOf]
  | [e] => by simp [pairsOf]
  | _ :: _ :: rest => by
    simp only [pairsOf, List.length_cons, pairsOf_length rest]
    omega

theorem flattenPairs_length : ∀ (qs : List (α × α)),
    (flattenPairs qs).length = 2 * qs.length
  | [] => rfl
  | (_, _) :: rest => by
    simp only [flattenPairs, List.length_cons, flattenPairs_length rest]
    omega

theorem pairsOf_flattenPairs : ∀ (qs : List (α × α)), pairsOf (flattenPairs qs) = qs
  | [] => rfl
  | (x, y) :: rest => by
    show (x, y) :: pairsOf (flattenPairs rest) = (x, y) :: rest
    rw [pairsOf_flattenPairs rest]

theorem pairsOf_getD : ∀ (c : List α) (i : Nat), 2 * i + 1 < c.length →
    ∀ (d : α × α) (e : α), (pairsOf c).getD i d = (c.getD (2 * i) e, c.getD (2 * i + 1) e)
  | [], i, h, d, e => absurd h (by simp)
  | [_], i, h, d, e => absurd h (by simp only [List.length_cons, List.length_nil]; omega)
  | x :: y :: rest, 0, h, d, e => rfl
  | x :: y :: rest, i + 1, h, d, e => by
    have h2 : 2 * i + 1 < rest.length := by
      simp only [List.length_cons] at h
      omega
    have hstep : 2 * (i + 1) = 2 * i + 1 + 1 := by omega
    simp only [pairsOf, List.getD_cons_succ, hstep]
    exact pairsOf_getD rest i h2 d e

theorem flattenPairs_getD : ∀ (qs : List (α × α)) (j : Nat), j < 2 * qs.length →
    ∀ (d : α) (dp : α × α), (flattenPairs qs).getD j d =
      (if j % 2 = 0 then (qs.getD (j / 2) dp).1 else (qs.getD (j / 2) dp).2)
  | [], j, h, d, dp => absurd h (by simp)
  | (x, y) :: rest, 0, h, d, dp => rfl
  | (x, y) :: rest, 1, h, d, dp => rfl
  | (x, y) :: rest, j + 2, h, d, dp => by
    have h2 : j < 2 * rest.length := by
      simp only [List.length_cons] at h
      omega
    have hdiv : (j + 2) / 2 = j / 2 + 1 := by omega
    have hmod : (j + 2) % 2 = j % 2 := by omega
    simp only [flattenPairs, List.getD_cons_succ, hdiv, hmod]
    exact flattenPairs_getD rest j h2 d dp

theorem getD_map_of_lt {α β : Type _} (f : α → β) :
    ∀ (l : List α) (i : Nat), i < l.length → ∀ (d : α) (e : β),
      (l.map f).getD i e = f (l.getD i d)
  | [], i, h, d, e => absurd h (by simp)
  | a :: l, 0, _, d, e => rfl
  | a :: l, i + 1, h, d, e => by
    simp only [List.map_cons, List.getD_cons_succ]
    exact getD_map_of_lt f l i (by simpa using h) d e

theorem getD_mem_of_lt : ∀ {l : List α} {i : Nat}, i < l.length → ∀ (d : α),
    l.getD i d ∈ l
  | [], i, h, _ => absurd h (by simp)
  | a :: l, 0, _, d => by simp
  | a :: l, i + 1, h, d => by
    simp only [List.getD_cons_succ]
    exact List.mem_cons_of_mem a (getD_mem_of_lt (by simpa using h) d)

theorem reduceOption_map_some_append (l : List α) (r : List (Option α)) :
    (l.map some ++ r).reduceOption = l ++ r.reduceOption := by
  induction l with
  | nil => simp
  | cons x xs ih => simp [ih]

theorem isort_length (less : α → α → Bool) (l : List α) :
    (isort less l).length = l.length :=
  (isort_perm less l).length_eq

theorem getD_of_lt (l : List α) (i : Nat) (h : i < l.length) (d : α) :
    l.getD i d = l[i] := by
  rw [List.getD_eq_getElem?_getD, List.getElem?_eq_getElem h]
  rfl

theorem gatherPairs_length (dk : Node → Option DynValue) (ps : List (Node × Node)) :
    (gatherPairs dk ps).length = ps.length := by
  simp [gatherPairs, isort_length]

/-- Members of the sorted key list carry an in-range index and the decoded
value of the key at that index. -/
theorem mem_isort_keys {dk : Node → Option DynValue} {ps : List (Node × Node)}
    {k : MapKey}
    (h : k ∈ isort lessKey ((List.range ps.length).map
      (fun i => (⟨i, keyValue dk (some (ps.getD i default).1)⟩ : MapKey)))) :
    k.index < ps.length ∧ k.value = keyValue dk (some (ps.getD k.index default).1) := by
  have hmem := (isort_perm lessKey _).subset h
  simp only [List.mem_map, List.mem_range] at hmem
  obtain ⟨i, hi, hk⟩ := hmem
  subst hk
  exact ⟨hi, rfl⟩

/-- Function `sortMapKeys` on nil-free content is the pairs-level gather, with a
trailing nil slot exactly when the content length is odd. -/
theorem sortMapKeys_map_some (dk : Node → Option DynValue) (c : List Node) :
    sortMapKeys dk (c.map some)
      = (flattenPairs (gatherPairs dk (pairsOf c))).map some
        ++ (if c.length % 2 = 1 then [none] else []) := by
  have hplen : (pairsOf c).length = c.length / 2 := pairsOf_length c
  have hkeys : (List.range ((c.map some).length / 2)).map
        (fun i => (⟨i, keyValue dk ((c.map some).getD (2 * i) none)⟩ : MapKey))
      = (List.range (pairsOf c).length).map
        (fun i => ⟨i, keyValue dk (some ((pairsOf c).getD i default).1)⟩) := by
    rw [List.length_map, ← hplen]
    apply List.map_congr_left
    intro i hi
    simp only [List.mem_range, hplen] at hi
    have h2i : 2 * i < c.length := by omega
    have h2i1 : 2 * i + 1 < c.length := by omega
    rw [getD_map_of_lt some c (2 * i) h2i defaultNode none,
      pairsOf_getD c i h2i1 default defaultNode]
  unfold sortMapKeys
  simp only []
  rw [hkeys]
  apply List.ext_getElem
  · simp only [List.length_map, List.length_append, List.length_range,
      flattenPairs_length, gatherPairs_length, hplen]
    split_ifs <;> simp <;> omega
  · intro j hj1 hj2
    simp only [List.length_map, List.length_range] at hj1
    rw [List.getElem_map, List.getElem_range]
    set S := isort lessKey ((List.range (pairsOf c).length).map
      (fun i => (⟨i, keyValue dk (some ((pairsOf c).getD i default).1)⟩ : MapKey))) with hS
    have hSlen : S.length = c.length / 2 := by
      rw [hS, isort_length, List.length_map, List.length_range, hplen]
    by_cases hcase : j / 2 < (c.map some).length / 2
    · -- in-range slot: filled from the gathered pair
      rw [if_pos hcase]
      rw [List.length_map] at hcase
      have hjS : j / 2 < S.length := by
        rw [hSlen]
        omega
      have hmem : S.getD (j / 2) default ∈ S :=
        getD_mem_of_lt hjS default
      obtain ⟨hidx, _⟩ := mem_isort_keys hmem
      set idx := (S.getD (j / 2) default).index with hidxdef
      have hidx2 : idx < c.length / 2 := by
        rw [hplen] at hidx
        exact hidx
      have hslot : 2 * idx + j % 2 < c.length := by omega
      rw [getD_map_of_lt some c _ hslot defaultNode none]
      have hjlt : j < 2 * (c.length / 2) := by omega
      have hjleft : j < ((flattenPairs (gatherPairs dk (pairsOf c))).map some).length := by
        simp only [List.length_map, flattenPairs_length, gatherPairs_length, hplen]
        omega
      have hjflat : j < (flattenPairs (gatherPairs dk (pairsOf c))).length := by
        simp only [flattenPairs_length, gatherPairs_length, hplen]
        omega
      rw [List.getElem_append_left hjleft, List.getElem_map]
      have hflat : (flattenPairs (gatherPairs dk (pairsOf c)))[j]
          = ((gatherPairs dk (pairsOf c)).getD (j / 2) default
              |> fun p => if j % 2 = 0 then p.1 else p.2) := by
        rw [← getD_of_lt _ j (by
          simp only [flattenPairs_length, gatherPairs_length, hplen]; omega) defaultNode]
        rw [flattenPairs_getD _ j (by rw [gatherPairs_length, hplen]; omega) defaultNode default]
      rw [hflat]
      have hgather : (gatherPairs dk (pairsOf c)).getD (j / 2) default
          = (pairsOf c).getD idx default := by
        unfold gatherPairs
        rw [getD_map_of_lt _ _ (j / 2) (by rw [isort_length, List.length_map, List.length_range, hplen]; omega) default default]
      rw [hgather, pairsOf_getD c idx (by omega) default defaultNode]
      rcases Nat.mod_two_eq_zero_or_one j with hm | hm <;> simp [hm]
    · -- the unfilled trailing slot of odd-length content
      rw [if_neg hcase]
      rw [List.length_map] at hcase
      have hodd : c.length % 2 = 1 := by omega
      have hj2n : j = 2 * (c.length / 2) := by omega
      have hlenA : ((flattenPairs (gatherPairs dk (pairsOf c))).map some).length
          = 2 * (c.length / 2) := by
        simp only [List.length_map, flattenPairs_length, gatherPairs_length, hplen]
      rw [List.getElem_append_right (by omega)]
      simp [hodd, hlenA, hj2n]

theorem sortMapKeysN_eq (dk : Node → Option DynValue) (c : List Node) :
    sortMapKeysN dk c = flattenPairs (gatherPairs dk (pairsOf c)) := by
  unfold sortMapKeysN
  rw [sortMapKeys_map_some, reduceOption_map_some_append]
  split_ifs <;> simp [List.reduceOption]

theorem lessKey_asym : Asym lessKey := fun a b h => mapLessB_asym a.value b.value h

theorem range_map_getD (l : List α) (d : α) :
    (List.range l.length).map (fun i => l.getD i d) = l := by
  apply List.ext_getElem
  · simp
  · intro i h1 h2
    simp only [List.getElem_map, List.getElem_range]
    exact getD_of_lt l i h2 d

/-- When the key sequence of a pair list is already adjacent-sorted, the
stable sort leaves it unchanged and the gather is the identity. -/
theorem gatherPairs_of_adjSorted (dk : Node → Option DynValue)
    (qs : List (Node × Node))
    (h : AdjSorted lessKey ((List.range qs.length).map
      (fun i => (⟨i, keyValue dk (some (qs.getD i default).1)⟩ : MapKey)))) :
    gatherPairs dk qs = qs := by
  unfold gatherPairs
  simp only []
  rw [isort_of_adjSorted _ _ h, List.map_map]
  have hcomp : ((fun k : MapKey => qs.getD k.index default) ∘ fun i =>
      (⟨i, keyValue dk (some (qs.getD i default).1)⟩ : MapKey))
      = fun i => qs.getD i default := rfl
  rw [hcomp, range_map_getD]

/-- Re-gathering an already-gathered pair list is the identity: the key
sequence of `gatherPairs` output is adjacent-sorted, and the stable sort
leaves an adjacent-sorted list unchanged. -/
theorem gatherPairs_idem (dk : Node → Option DynValue) (ps : List (Node × Node)) :
    gatherPairs dk (gatherPairs dk ps) = gatherPairs dk ps := by
  set keys1 := (List.range ps.length).map
    (fun i => (⟨i, keyValue dk (some (ps.getD i default).1)⟩ : MapKey)) with hk1
  set S := isort lessKey keys1 with hS
  have hSlen : S.length = ps.length := by
    rw [hS, isort_length, hk1, List.length_map, List.length_range]
  have hglen : (gatherPairs dk ps).length = ps.length := gatherPairs_length dk ps
  have hgetg : ∀ i, i < ps.length → (gatherPairs dk ps).getD i default
      = ps.getD (S.getD i default).index default := by
    intro i hi
    unfold gatherPairs
    rw [getD_map_of_lt _ _ i (by rw [isort_length, List.length_map, List.length_range]; omega)
      default default]
  have hkeys2 : (List.range ((gatherPairs dk ps).length)).map
        (fun i => (⟨i, keyValue dk (some ((gatherPairs dk ps).getD i default).1)⟩ : MapKey))
      = (List.range S.length).map (fun i => (⟨i, (S.getD i default).value⟩ : MapKey)) := by
    rw [hglen, ← hSlen]
    apply List.map_congr_left
    intro i hi
    simp only [List.mem_range] at hi
    have hiS : i < S.length := by
      rw [hSlen]
      omega
    have hmemS : S.getD i default ∈ S := getD_mem_of_lt hiS default
    have hmem := @mem_isort_keys dk ps (S.getD i default) hmemS
    rw [hgetg i (by omega)]
    congr 1
    exact hmem.2.symm
  have hchainS : AdjSorted lessKey S := adjSorted_isort lessKey lessKey_asym keys1
  have hchain2 : AdjSorted lessKey
      ((List.range S.length).map (fun i => (⟨i, (S.getD i default).value⟩ : MapKey))) := by
    rw [AdjSorted, List.chain'_iff_get]
    rw [AdjSorted, List.chain'_iff_get] at hchainS
    intro i hlen
    simp only [List.length_map, List.length_range] at hlen
    have h1 : i < S.length := by omega
    have h2 : i + 1 < S.length := by omega
    have e1 : (S.getD i default) = S[i] := getD_of_lt S i h1 default
    have e2 : (S.getD (i + 1) default) = S[i + 1] := getD_of_lt S (i + 1) h2 default
    have hstep := hchainS i (by omega)
    simp only [List.get_eq_getElem, lessKey] at hstep
    simp only [List.get_eq_getElem, List.getElem_map, List.getElem_range, lessKey]
    rw [e1, e2]
    exact hstep
  exact gatherPairs_of_adjSorted dk (gatherPairs dk ps) (by rw [hkeys2]; exact hchain2)

theorem sortMapKeysN_idem (dk : Node → Option DynValue) (c : List Node) :
    sortMapKeysN dk (sortMapKeysN dk c) = sortMapKeysN dk c := by
  rw [sortMapKeysN_eq, sortMapKeysN_eq, pairsOf_flattenPairs, gatherPairs_idem]

theorem mem_flattenPairs : ∀ {qs : List (α × α)} {x : α}, x ∈ flattenPairs qs →
    ∃ p ∈ qs, x = p.1 ∨ x = p.2
  | [], x, h => absurd h (by simp [flattenPairs])
  | (a, b) :: rest, x, h => by
    simp only [flattenPairs, List.mem_cons] at h
    rcases h with h | h | h
    · exact ⟨(a, b), by simp, Or.inl h⟩
    · exact ⟨(a, b), by simp, Or.inr h⟩
    · obtain ⟨p, hp, hx⟩ := mem_flattenPairs h
      exact ⟨p, List.mem_cons_of_mem _ hp, hx⟩

theorem mem_pairsOf : ∀ {c : List α} {p : α × α}, p ∈ pairsOf c →
    p.1 ∈ c ∧ p.2 ∈ c
  | [], p, h => absurd h (by simp [pairsOf])
  | [e], p, h => absurd h (by simp [pairsOf])
  | x :: y :: rest, p, h => by
    simp only [pairsOf, List.mem_cons] at h
    rcases h with h | h
    · subst h
      simp
    · obtain ⟨h1, h2⟩ := mem_pairsOf h
      exact ⟨List.mem_cons_of_mem _ (List.mem_cons_of_mem _ h1),
        List.mem_cons_of_mem _ (List.mem_cons_of_mem _ h2)⟩

theorem mem_gatherPairs {dk : Node → Option DynValue} {ps : List (Node × Node)}
    {p : Node × Node} (h : p ∈ gatherPairs dk ps) : p ∈ ps := by
  unfold gatherPairs at h
  simp only [List.mem_map] at h
  obtain ⟨k, hk, hp⟩ := h
  obtain ⟨hidx, _⟩ := mem_isort_keys hk
  subst hp
  exact getD_mem_of_lt hidx default

/-- Every node of the sorted content comes from the original content. -/
theorem mem_sortMapKeysN {dk : Node → Option DynValue} {c : List Node} {x : Node}
    (h : x ∈ sortMapKeysN dk c) : x ∈ c := by
  rw [sortMapKeysN_eq] at h
  obtain ⟨p, hp, hx⟩ := mem_flattenPairs h
  obtain ⟨h1, h2⟩ := mem_pairsOf (mem_gatherPairs hp)
  rcases hx with hx | hx <;> subst hx <;> assumption

/-- Structural induction on `Node` through the nested content list. -/
theorem Node.inductionOn {P : Node → Prop}
    (h : ∀ k s t v a hc lc fc content,
      (∀ m ∈ content, P m) → P (.mk k s t v a hc lc fc content)) :
    ∀ n, P n
  | .mk k s t v a hc lc fc content =>
    h k s t v a hc lc fc content (fun m hm => Node.inductionOn h m)
  decreasing_by
    have := List.sizeOf_lt_of_mem hm
    simp only [Node.mk.sizeOf_spec]
    omega

/-- Function `normalizeNode` unfolded on a constructor. -/
theorem normalizeNode_mk (dk : Node → Option DynValue) (pc : Bool) (k : NodeKind)
    (s : Nat) (t v a hc lc fc : String) (content : List Node) :
    normalizeNode dk pc (.mk k s t v a hc lc fc content)
      = .mk k 0 t v a (if pc then hc else "") (if pc then lc else "")
        (if pc then fc else "")
        (if k = .mappingNode then sortMapKeysN dk (content.map (normalizeNode dk pc))
         else content.map (normalizeNode dk pc)) := by
  rw [normalizeNode]
  simp only [List.attach_map_val]

/-- Function `normalizeNode` is idempotent on every node: a second normalization pass
(style already reset, comments already stripped or preserved, mapping entries
already stably sorted) changes nothing. -/
theorem normalizeNode_idem (dk : Node → Option DynValue) (pc : Bool) :
    ∀ n, normalizeNode dk pc (normalizeNode dk pc n) = normalizeNode dk pc n := by
  intro n
  induction n using Node.inductionOn with
  | _ k s t v a hc lc fc content ih =>
    rw [normalizeNode_mk, normalizeNode_mk]
    have hcomments : ∀ str : String,
        (if pc then (if pc then str else "") else "") = (if pc then str else "") := by
      intro str
      cases pc <;> simp
    have hmapfix : ∀ (l : List Node), (∀ x ∈ l, x ∈ content.map (normalizeNode dk pc)) →
        l.map (normalizeNode dk pc) = l := by
      intro l hl
      have : ∀ x ∈ l, normalizeNode dk pc x = x := by
        intro x hx
        obtain ⟨m, hm, hxm⟩ := List.mem_map.mp (hl x hx)
        subst hxm
        exact ih m hm
      calc l.map (normalizeNode dk pc) = l.map id := List.map_congr_left this
        _ = l := List.map_id l
    by_cases hk : k = NodeKind.mappingNode
    · simp only [hk, eq_self_iff_true, if_true]
      rw [hmapfix (sortMapKeysN dk (content.map (normalizeNode dk pc)))
        (fun x hx => mem_sortMapKeysN hx)]
      rw [sortMapKeysN_idem]
      simp only [hcomments]
    · simp only [if_neg hk]
      rw [hmapfix (content.map (normalizeNode dk pc)) (fun x hx => hx)]
      simp only [hcomments]

/-- C6: an input stream from which the decoder yields zero documents (an
empty or whitespace-only stream) normalizes successfully to zero output
bytes; the encoder finalization never runs — the result is `[]` whatever
`closeBytes` would be. -/
theorem claim_C6_empty_input (C : Codec β) (pc : Bool) (input : List β)
    (h : C.decodeStream input = ([], none)) :
    Normalize C pc input = .ok [] := by
  unfold Normalize
  rw [h]
  simp

theorem claim_C6_empty_input_witness :
    Normalize idCodec false [] = .ok [] :=
  claim_C6_empty_input idCodec false [] rfl

/-- C5: byte-level idempotence of `Normalize` under the round-trip contract
of the external codec: decoding the empty stream yields no documents;
decoding an encoded document stream yields the same documents up to the
decoder's re-reading `reparse`; and `reparse` is the identity on canonical
(already normalized) documents.  The internal content is that a second
normalization pass fixes every already-normalized document
(`normalizeNode_idem`). -/
theorem claim_C5_normalize_idempotent (C : Codec β) (pc : Bool)
    (reparse : Node → Node)
    (hL0 : C.decodeStream [] = ([], none))
    (hL1 : ∀ ds : List Node, ds ≠ [] →
      C.decodeStream (C.encodeDocs ds ++ C.closeBytes) = (ds.map reparse, none))
    (hL2 : ∀ d, reparse (normalizeNode C.decodeKey pc d)
      = normalizeNode C.decodeKey pc d)
    (input out : List β)
    (hrun : Normalize C pc input = .ok out) :
    Normalize C pc out = .ok out := by
  unfold Normalize at hrun
  rcases hdec : C.decodeStream input with ⟨docs, err⟩
  rw [hdec] at hrun
  cases err with
  | some e => simp at hrun
  | none =>
    by_cases hempty : docs.isEmpty
    · simp only [hempty, if_true, Except.ok.injEq] at hrun
      subst hrun
      exact claim_C6_empty_input C pc [] hL0
    · simp only [hempty, Bool.false_eq_true, if_false, Except.ok.injEq] at hrun
      subst hrun
      have hne : docs.map (normalizeNode C.decodeKey pc) ≠ [] := by
        intro hc
        rw [List.map_eq_nil] at hc
        subst hc
        simp at hempty
      unfold Normalize
      rw [hL1 _ hne]
      have hfix : (docs.map (normalizeNode C.decodeKey pc)).map reparse
          = docs.map (normalizeNode C.decodeKey pc) := by
        rw [List.map_map]
        apply List.map_congr_left
        intro d _
        exact hL2 d
      rw [hfix]
      have hne2 : ¬ (docs.map (normalizeNode C.decodeKey pc)).isEmpty = true := by
        rw [List.isEmpty_iff]
        exact hne
      simp only [hne2, Bool.false_eq_true, if_false, Except.ok.injEq]
      rw [List.map_map]
      congr 2
      apply List.map_congr_left
      intro d _
      exact normalizeNode_idem C.decodeKey pc d

theorem normalizeNode_defaultNode (dk : Node → Option DynValue) (pc : Bool) :
    normalizeNode dk pc defaultNode = defaultNode := by
  rw [show defaultNode = Node.mk .scalarNode 0 "" "" "" "" "" "" [] from rfl,
    normalizeNode_mk]
  cases pc <;> simp

theorem claim_C5_normalize_idempotent_witness :
    Normalize idCodec false [defaultNode] = .ok [defaultNode] := by
  have hrun : Normalize idCodec false [defaultNode] = .ok [defaultNode] := by
    simp [Normalize, idCodec, normalizeNode_defaultNode]
  exact claim_C5_normalize_idempotent idCodec false id rfl
    (fun ds h => by simp [idCodec]) (fun d => rfl) [defaultNode] [defaultNode] hrun

/-- C2 counterexample: `sortMapKeys` ignores the error of `n.Decode(&value)`
(sorter.go line 22 discards it), so a mapping with an undecodable key is
still sorted successfully — no abort — and the failed key is silently
ordered first (its `reflect.Value` is invalid, kind rank 0). -/
theorem claim_C2_counterexample :
    exampleDecode badKeyNode = none ∧
    sortMapKeys exampleDecode
        [some goodKeyNode, some valNode1, some badKeyNode, some valNode2]
      = [some badKeyNode, some valNode2, some goodKeyNode, some valNode1] := by
  constructor
  · rfl
  · rfl

/-- C2 (amended): a key whose decode fails does not abort normalization; its
classified value silently defaults to the nil/invalid value, which orders
before every successfully decoded non-nil key by kind rank. -/
theorem claim_C2_failed_key_defaults (dk : Node → Option DynValue)
    (a b : Node) (v : DynValue) (ha : dk a = none) (hb : dk b = some v)
    (hv : v ≠ .vnil) :
    mapLessB (keyValue dk (some a)) (keyValue dk (some b)) = true := by
  have hka : keyValue dk (some a) = .vnil := by simp [keyValue, ha]
  have hkb : keyValue dk (some b) = v := by simp [keyValue, hb]
  rw [hka, hkb]
  cases v <;> simp [mapLessB, mapLess, numVal, numLess, kindRank] at hv ⊢

theorem claim_C2_failed_key_defaults_witness :
    mapLessB (keyValue exampleDecode (some badKeyNode))
      (keyValue exampleDecode (some goodKeyNode)) = true :=
  claim_C2_failed_key_defaults exampleDecode badKeyNode goodKeyNode
    (.vstring "zzz".toList) rfl rfl (by intro h; cases h)

/-- C9: on mapping content of odd length, `sortMapKeys` returns a slice of
the same length whose final element is a nil node pointer: the unpaired
trailing node is dropped (its slot in `newContent` is never filled), not
preserved or reported. -/
theorem claim_C9_odd_content_trailing_nil (dk : Node → Option DynValue)
    (content : List (Option Node)) (hodd : content.length % 2 = 1) :
    (sortMapKeys dk content).length = content.length ∧
    (sortMapKeys dk content).getLast? = some none := by
  unfold sortMapKeys
  simp only []
  constructor
  · simp
  · have hpos : 0 < content.length := by omega
    rw [List.getLast?_eq_getElem?]
    simp only [List.length_map, List.length_range]
    rw [List.getElem?_eq_getElem (by simpa using Nat.sub_lt hpos one_pos)]
    rw [List.getElem_map, List.getElem_range]
    have hnot : ¬ (content.length - 1) / 2 < content.length / 2 := by omega
    simp [hnot]

theorem claim_C9_odd_content_trailing_nil_witness :
    (sortMapKeys exampleDecode
      [some goodKeyNode, some valNode1, some badKeyNode]).length = 3 ∧
    (sortMapKeys exampleDecode
      [some goodKeyNode, some valNode1, some badKeyNode]).getLast? = some none := by
  have h := claim_C9_odd_content_trailing_nil exampleDecode
    [some goodKeyNode, some valNode1, some badKeyNode] (by simp)
  simpa using h

theorem sepConcat_snoc (docs : List (List Nat)) (d : List Nat) :
    sepConcat (docs ++ [d])
      = sepConcat docs ++ (if docs.isEmpty then [] else sepBytes) ++ d := by
  cases docs with
  | nil => simp [sepConcat]
  | cons e rest => simp [sepConcat, List.map_append, List.join_append]

theorem lookupA_cons (k : Nat) (p : Nat × List Nat) (m : List (Nat × List Nat)) :
    lookupA k (p :: m) = if p.1 = k then some p.2 else lookupA k m := by
  unfold lookupA
  rw [List.find?_cons]
  by_cases h : p.1 = k
  · simp [h]
  · have hbeq : (p.1 == k) = false := by simp [h]
    simp only [hbeq, if_neg h]

theorem lookupA_eq_none_iff (k : Nat) (m : List (Nat × List Nat)) :
    lookupA k m = none ↔ k ∉ m.map Prod.fst := by
  induction m with
  | nil => simp [lookupA]
  | cons p rest ih =>
    rw [lookupA_cons]
    by_cases h : p.1 = k
    · simp [h]
    · rw [if_neg h, ih]
      simp only [List.map_cons, List.mem_cons]
      constructor
      · intro hk hor
        rcases hor with he | hm
        · exact h he.symm
        · exact hk hm
      · intro hk hm
        exact hk (Or.inr hm)

theorem lookupA_eraseA_ne (k n : Nat) (h : k ≠ n) (m : List (Nat × List Nat)) :
    lookupA k (eraseA n m) = lookupA k m := by
  induction m with
  | nil => simp [eraseA]
  | cons p rest ih =>
    unfold eraseA
    by_cases hp : p.1 = n
    · simp only [hp, beq_self_eq_true, if_true]
      rw [lookupA_cons, if_neg (by omega)]
    · simp only [beq_iff_eq, hp, if_false]
      rw [lookupA_cons, lookupA_cons, ih]

theorem lookupA_eraseA_self (n : Nat) (m : List (Nat × List Nat))
    (hnd : (m.map Prod.fst).Nodup) : lookupA n (eraseA n m) = none := by
  induction m with
  | nil => simp [eraseA, lookupA]
  | cons p rest ih =>
    unfold eraseA
    simp only [List.map_cons, List.nodup_cons] at hnd
    by_cases hp : p.1 = n
    · simp only [hp, beq_self_eq_true, if_true]
      rw [lookupA_eq_none_iff]
      rw [hp] at hnd
      exact hnd.1
    · simp only [beq_iff_eq, hp, if_false]
      rw [lookupA_cons, if_neg hp]
      exact ih hnd.2

theorem eraseA_sublist (n : Nat) (m : List (Nat × List Nat)) :
    (eraseA n m).Sublist m := by
  induction m with
  | nil => simp [eraseA]
  | cons p rest ih =>
    unfold eraseA
    by_cases hp : p.1 = n
    · simp only [hp, beq_self_eq_true, if_true]
      exact List.sublist_cons_self p rest
    · simp only [beq_iff_eq, hp, if_false]
      exact ih.cons₂ p

theorem eraseA_length {n : Nat} {m : List (Nat × List Nat)} {d : List Nat}
    (h : lookupA n m = some d) : (eraseA n m).length + 1 = m.length := by
  induction m with
  | nil => simp [lookupA] at h
  | cons p rest ih =>
    rw [lookupA_cons] at h
    unfold eraseA
    by_cases hp : p.1 = n
    · simp [hp]
    · simp only [beq_iff_eq, hp, if_false, List.length_cons]
      rw [if_neg hp] at h
      rw [← ih h]

theorem seqInv_congr {canon : Nat → List Nat} {A B : List Nat} {s : SeqState}
    (hAB : ∀ k, k ∈ A ↔ k ∈ B) (h : SeqInv canon A s) : SeqInv canon B s := by
  refine ⟨fun k hk => (hAB k).mp (h.gap_lt k hk),
    fun hc => h.gap_notin ((hAB _).mpr hc), h.nodup, fun k => ?_, h.out_eq⟩
  rw [h.look k]
  by_cases hk : k ∈ A ∧ s.nextIndex ≤ k
  · rw [if_pos hk, if_pos ⟨(hAB k).mp hk.1, hk.2⟩]
  · rw [if_neg hk, if_neg (fun hc => hk ⟨(hAB k).mpr hc.1, hc.2⟩)]

/-- The flush loop establishes the full invariant from its precondition (the
invariant minus the gap condition), as long as the fuel covers the size of
the holding map. -/
theorem flushN_spec (canon : Nat → List Nat) :
    ∀ (fuel : Nat) (A : List Nat) (s : SeqState),
    s.pending.length ≤ fuel →
    (∀ k, k < s.nextIndex → k ∈ A) →
    (s.pending.map Prod.fst).Nodup →
    (∀ k, lookupA k s.pending
      = if k ∈ A ∧ s.nextIndex ≤ k then some (canon k) else none) →
    s.out = sepConcat ((List.range s.nextIndex).map canon) →
    SeqInv canon A (flushN fuel s) := by
  intro fuel
  induction fuel with
  | zero =>
    intro A s hfuel hgl hnd hlk hout
    have hnil : s.pending = [] := List.length_eq_zero.mp (by omega)
    have hgap : s.nextIndex ∉ A := by
      intro hc
      have := hlk s.nextIndex
      rw [if_pos ⟨hc, le_refl _⟩, hnil] at this
      simp [lookupA] at this
    exact ⟨hgl, hgap, hnd, hlk, hout⟩
  | succ fuel ih =>
    intro A s hfuel hgl hnd hlk hout
    unfold flushN
    cases hlook : lookupA s.nextIndex s.pending with
    | none =>
      have hgap : s.nextIndex ∉ A := by
        intro hc
        rw [hlk s.nextIndex, if_pos ⟨hc, le_refl _⟩] at hlook
        cases hlook
      exact ⟨hgl, hgap, hnd, hlk, hout⟩
    | some doc =>
      have hmemA : s.nextIndex ∈ A ∧ doc = canon s.nextIndex := by
        have := hlk s.nextIndex
        rw [hlook] at this
        by_cases hc : s.nextIndex ∈ A ∧ s.nextIndex ≤ s.nextIndex
        · rw [if_pos hc] at this
          exact ⟨hc.1, (Option.some.injEq _ _).mp this⟩
        · rw [if_neg hc] at this
          cases this
      apply ih A
      · have := eraseA_length hlook
        simp only [List.length_cons] at hfuel ⊢
        omega
      · intro k hk
        simp only [] at hk
        rcases Nat.lt_succ_iff_lt_or_eq.mp hk with hk2 | hk2
        · exact hgl k hk2
        · rw [hk2]
          exact hmemA.1
      · exact ((eraseA_sublist _ _).map Prod.fst).nodup hnd
      · intro k
        simp only []
        by_cases hk : k = s.nextIndex
        · rw [hk, lookupA_eraseA_self _ _ hnd]
          rw [if_neg (by omega)]
        · rw [lookupA_eraseA_ne k s.nextIndex hk, hlk k]
          by_cases hc : k ∈ A ∧ s.nextIndex ≤ k
          · rw [if_pos hc, if_pos ⟨hc.1, by omega⟩]
          · rw [if_neg hc, if_neg (fun h2 => hc ⟨h2.1, by omega⟩)]
      · simp only [hout, hmemA.2, List.range_succ, List.map_append, List.map_cons,
          List.map_nil, sepConcat_snoc]
        have : ((List.range s.nextIndex).map canon).isEmpty = (s.nextIndex == 0) := by
          cases hn : s.nextIndex <;> simp [List.range_succ]
        rw [this]
        cases hn : s.nextIndex <;> simp

theorem eraseA_not_mem {k : Nat} {m : List (Nat × List Nat)}
    (h : k ∉ m.map Prod.fst) : eraseA k m = m := by
  induction m with
  | nil => rfl
  | cons p rest ih =>
    simp only [List.map_cons, List.mem_cons] at h
    push_neg at h
    have hbeq : (p.1 == k) = false := by
      simp only [beq_eq_false_iff_ne, ne_eq]
      exact fun he => h.1 he.symm
    unfold eraseA
    rw [hbeq]
    simp only [if_false, Bool.false_eq_true]
    rw [ih h.2]

/-- One arrival keeps the invariant, growing the arrived set. -/
theorem seqStep_inv {canon : Nat → List Nat} {A : List Nat} {s : SeqState}
    (hinv : SeqInv canon A s) (i : Nat) (hiA : i ∉ A) :
    SeqInv canon (i :: A) (seqStep s (i, canon i)) := by
  have hge : s.nextIndex ≤ i := by
    by_contra hc
    exact hiA (hinv.gap_lt i (by omega))
  have hnotkey : i ∉ s.pending.map Prod.fst := by
    rw [← lookupA_eq_none_iff, hinv.look i, if_neg (fun hc => hiA hc.1)]
  have herase : eraseA i s.pending = s.pending := eraseA_not_mem hnotkey
  have hnd2 : (((i, canon i) :: s.pending).map Prod.fst).Nodup := by
    simp only [List.map_cons, List.nodup_cons]
    exact ⟨hnotkey, hinv.nodup⟩
  have hlk2 : ∀ k, lookupA k ((i, canon i) :: s.pending)
      = if k ∈ i :: A ∧ s.nextIndex ≤ k then some (canon k) else none := by
    intro k
    rw [lookupA_cons]
    by_cases hk : i = k
    · subst hk
      rw [if_pos rfl, if_pos ⟨by simp, hge⟩]
    · rw [if_neg hk, hinv.look k]
      by_cases hc : k ∈ A ∧ s.nextIndex ≤ k
      · rw [if_pos hc, if_pos ⟨List.mem_cons_of_mem _ hc.1, hc.2⟩]
      · rw [if_neg hc, if_neg]
        intro h2
        rcases List.mem_cons.mp h2.1 with he | hm
        · exact hk he.symm
        · exact hc ⟨hm, h2.2⟩
  unfold seqStep
  simp only [herase]
  by_cases hieq : i = s.nextIndex
  · rw [if_pos hieq]
    apply flushN_spec canon _ (i :: A) _ (le_refl _)
    · intro k hk
      exact List.mem_cons_of_mem _ (hinv.gap_lt k hk)
    · exact hnd2
    · exact hlk2
    · exact hinv.out_eq
  · rw [if_neg hieq]
    refine ⟨fun k hk => List.mem_cons_of_mem _ (hinv.gap_lt k hk), ?_, hnd2, hlk2,
      hinv.out_eq⟩
    intro hc
    rcases List.mem_cons.mp hc with he | hm
    · exact hieq he.symm
    · exact hinv.gap_notin hm

/-- Folding any sequence of fresh, correctly-paid arrivals preserves the
invariant, accumulating the arrived indices. -/
theorem foldArrivals_inv {canon : Nat → List Nat} :
    ∀ (arr : List (Nat × List Nat)) (A : List Nat) (s : SeqState),
    SeqInv canon A s →
    (∀ p ∈ arr, p.2 = canon p.1) →
    (arr.map Prod.fst).Nodup →
    (∀ p ∈ arr, p.1 ∉ A) →
    SeqInv canon (arr.map Prod.fst ++ A) (arr.foldl seqStep s)
  | [], A, s, hinv, _, _, _ => by simpa using hinv
  | (i, d) :: rest, A, s, hinv, hpay, hnd, hnin => by
    have hd : d = canon i := hpay (i, d) (by simp)
    subst hd
    have hstep := seqStep_inv hinv i (hnin (i, canon i) (by simp))
    simp only [List.foldl_cons]
    have hndr : (rest.map Prod.fst).Nodup := by
      simp only [List.map_cons, List.nodup_cons] at hnd
      exact hnd.2
    have hninr : ∀ p ∈ rest, p.1 ∉ i :: A := by
      intro p hp
      simp only [List.mem_cons]
      push_neg
      constructor
      · intro he
        simp only [List.map_cons, List.nodup_cons] at hnd
        exact hnd.1 (he ▸ List.mem_map_of_mem Prod.fst hp)
      · exact hnin p (List.mem_cons_of_mem _ hp)
    have hrec := foldArrivals_inv rest (i :: A) (seqStep s (i, canon i)) hstep
      (fun p hp => hpay p (List.mem_cons_of_mem _ hp)) hndr hninr
    apply seqInv_congr _ hrec
    intro k
    simp only [List.mem_append, List.mem_cons, List.map_cons]
    tauto

/-- C1: for `N` input files in combined mode, whatever order the worker
results `(inputIndex, bytes)` arrive in — any permutation of the indexed
canonical results — the sequencer writes the per-file canonical results
exactly once each, concatenated in ascending input-index order with the
document separator between consecutive files and never before the first:
output order equals input argument order regardless of completion order. -/
theorem claim_C1_output_order (N : Nat) (canon : Nat → List Nat)
    (arrivals : List (Nat × List Nat))
    (hperm : List.Perm arrivals ((List.range N).map (fun i => (i, canon i)))) :
    (runSequencer arrivals).out = sepConcat ((List.range N).map canon) := by
  unfold runSequencer
  have hpay : ∀ p ∈ arrivals, p.2 = canon p.1 := by
    intro p hp
    have hm := hperm.subset hp
    simp only [List.mem_map, List.mem_range] at hm
    obtain ⟨i, _, rfl⟩ := hm
    rfl
  have hfst : List.Perm (arrivals.map Prod.fst) (List.range N) := by
    have h2 := hperm.map Prod.fst
    rw [List.map_map] at h2
    have hc : (Prod.fst ∘ fun i => (i, canon i)) = id := rfl
    rw [hc, List.map_id] at h2
    exact h2
  have hnd : (arrivals.map Prod.fst).Nodup :=
    hfst.nodup_iff.mpr (List.nodup_range N)
  have hmem : ∀ k, k ∈ arrivals.map Prod.fst ↔ k < N := by
    intro k
    rw [hfst.mem_iff, List.mem_range]
  have hinit : SeqInv canon [] initialSeq := by
    refine ⟨fun k hk => absurd hk (by simp [initialSeq]), by simp, by simp [initialSeq],
      fun k => ?_, by simp [initialSeq, sepConcat]⟩
    simp [initialSeq, lookupA]
  have hfold := foldArrivals_inv arrivals [] initialSeq hinit hpay hnd
    (fun p _ => by simp)
  rw [List.append_nil] at hfold
  have hN : (arrivals.foldl seqStep initialSeq).nextIndex = N := by
    by_contra hne
    rcases Nat.lt_or_ge (arrivals.foldl seqStep initialSeq).nextIndex N with hlt | hge
    · exact hfold.gap_notin ((hmem _).mpr hlt)
    · have hNlt : N < (arrivals.foldl seqStep initialSeq).nextIndex := by omega
      have := (hmem N).mp (hfold.gap_lt N hNlt)
      omega
  have := hfold.out_eq
  rw [hN] at this
  exact this

theorem claim_C1_output_order_witness :
    (runSequencer [(2, [102]), (0, [100]), (1, [101])]).out
      = sepConcat ((List.range 3).map (fun i => [100 + i])) :=
  claim_C1_output_order 3 (fun i => [100 + i]) [(2, [102]), (0, [100]), (1, [101])]
    (by decide)

theorem fsGet_fsSet_self (name : String) (fd : FileData) (fs : FS) :
    fsGet name (fsSet name fd fs) = some fd := by
  induction fs with
  | nil => simp [fsSet, fsGet]
  | cons p rest ih =>
    unfold fsSet
    by_cases h : p.1 = name
    · simp [h, fsGet]
    · have hbeq : (p.1 == name) = false := by simp [h]
      rw [hbeq]
      simp only [Bool.false_eq_true, if_false]
      unfold fsGet
      rw [List.find?_cons, hbeq]
      exact ih

theorem fsGet_fsSet_ne {name other : String} (h : other ≠ name) (fd : FileData)
    (fs : FS) : fsGet name (fsSet other fd fs) = fsGet name fs := by
  induction fs with
  | nil =>
    simp only [fsSet, fsGet, List.find?_cons, List.find?_nil]
    have : (other == name) = false := by simp [h]
    rw [this]
  | cons p rest ih =>
    unfold fsSet
    by_cases hp : p.1 = other
    · have hbeq : (p.1 == other) = true := by simp [hp]
      rw [hbeq]
      simp only [if_true]
      unfold fsGet
      rw [List.find?_cons, List.find?_cons]
      have h1 : (other == name) = false := by simp [h]
      have h2 : (p.1 == name) = false := by simp [hp ▸ h]
      rw [h1, h2]
    · have hbeq : (p.1 == other) = false := by simp [hp]
      rw [hbeq]
      simp only [Bool.false_eq_true, if_false]
      unfold fsGet
      rw [List.find?_cons, List.find?_cons]
      cases hc : (p.1 == name)
      · exact ih
      · rfl

theorem fsGet_fsErase_ne {name other : String} (h : other ≠ name) (fs : FS) :
    fsGet name (fsErase other fs) = fsGet name fs := by
  induction fs with
  | nil => rfl
  | cons p rest ih =>
    unfold fsErase
    by_cases hp : p.1 = other
    · have hbeq : (p.1 == other) = true := by simp [hp]
      rw [hbeq]
      simp only [if_true]
      unfold fsGet
      rw [List.find?_cons]
      have h2 : (p.1 == name) = false := by simp [hp ▸ h]
      rw [h2]
    · have hbeq : (p.1 == other) = false := by simp [hp]
      rw [hbeq]
      simp only [Bool.false_eq_true, if_false]
      unfold fsGet
      rw [List.find?_cons, List.find?_cons]
      cases hc : (p.1 == name)
      · exact ih
      · rfl

theorem tmpName_ne (name : String) : tmpName name ≠ name := by
  intro h
  have hlen := congrArg String.length h
  rw [tmpName, String.length_append] at hlen
  rw [show (".tmp_").length = 5 from rfl] at hlen
  omega

/-- Everything `normalizeToFile` writes lands at its destination path. -/
theorem normalizeToFile_preserves_other (C : Codec Nat) (pc : Bool)
    (oracle : IOOracle) (fs : FS) (input : List Nat) (dest : String)
    (mode : Nat) (other : String) (h : dest ≠ other) :
    fsGet other (normalizeToFile C pc oracle fs input dest mode).1
      = fsGet other fs := by
  unfold normalizeToFile
  by_cases ho : oracle.openOk = true
  · simp only [ho, Bool.not_true, Bool.false_eq_true, if_false]
    cases Normalize C pc input with
    | error e => exact fsGet_fsSet_ne h _ fs
    | ok out =>
      by_cases hf : oracle.flushOk = true
      · by_cases hc : oracle.closeOk = true
        · simp only [hf, hc, Bool.not_true, Bool.false_eq_true, if_false]
          exact fsGet_fsSet_ne h _ fs
        · simp only [hf, hc, Bool.not_true, Bool.false_eq_true, if_false,
            Bool.not_false, if_true]
          exact fsGet_fsSet_ne h _ fs
      · simp only [hf, Bool.not_false, if_true]
        exact fsGet_fsSet_ne h _ fs
  · simp only [Bool.not_eq_true] at ho
    simp [ho]

/-- C7: whenever the large-file path fails — open, decode, normalize, encode,
write, flush, close, or even the rename itself — the original file's entry
(bytes and mode) is unchanged: before the rename every write goes to the
`.tmp_` path only, and the file is replaced solely by the final rename. -/
theorem claim_C7_crash_safe_large (C : Codec Nat) (pc : Bool)
    (oracle : IOOracle) (fs : FS) (name : String) (mode : Nat)
    (fs2 : FS) (e : String)
    (hrun : normalizeFileLarge C pc oracle fs name mode = (fs2, some e)) :
    fsGet name fs2 = fsGet name fs := by
  unfold normalizeFileLarge at hrun
  by_cases hr : oracle.readOk = true
  · simp only [hr, Bool.not_true, Bool.false_eq_true, if_false] at hrun
    cases hsrc : fsGet name fs with
    | none =>
      simp only [hsrc, Prod.mk.injEq] at hrun
      rw [← hrun.1]
      exact hsrc
    | some src =>
      simp only [hsrc] at hrun
      rcases hto : normalizeToFile C pc oracle fs src.data (tmpName name) mode
        with ⟨fsa, erra⟩
      rw [hto] at hrun
      have hother : fsGet name fsa = fsGet name fs := by
        have hp := normalizeToFile_preserves_other C pc oracle fs src.data
          (tmpName name) mode name (tmpName_ne name)
        rw [hto] at hp
        exact hp
      cases erra with
      | some ea =>
        simp only [Prod.mk.injEq] at hrun
        rw [← hrun.1, hother]
        exact hsrc
      | none =>
        by_cases hren : oracle.renameOk = true
        · simp only [hren, Bool.not_true, Bool.false_eq_true, if_false] at hrun
          cases htmp : fsGet (tmpName name) fsa with
          | none =>
            simp only [htmp, Prod.mk.injEq] at hrun
            rw [← hrun.1, hother]
            exact hsrc
          | some tfd =>
            simp only [htmp] at hrun
            simp at hrun
        · simp only [Bool.not_eq_true] at hren
          simp only [hren, Bool.not_false, if_true, Prod.mk.injEq] at hrun
          rw [← hrun.1, hother]
          exact hsrc
  · simp only [Bool.not_eq_true] at hr
    simp only [hr, Bool.not_false, if_true, Prod.mk.injEq] at hrun
    rw [← hrun.1]

theorem claim_C7_crash_safe_large_witness :
    fsGet "c" (normalizeFileLarge emptyCodec false
        ⟨true, false, true, true, true, [9]⟩ [("c", ⟨[1], 420⟩)] "c" 420).1
      = fsGet "c" [("c", (⟨[1], 420⟩ : FileData))] :=
  claim_C7_crash_safe_large emptyCodec false
    ⟨true, false, true, true, true, [9]⟩ [("c", ⟨[1], 420⟩)] "c" 420
    (normalizeFileLarge emptyCodec false
      ⟨true, false, true, true, true, [9]⟩ [("c", ⟨[1], 420⟩)] "c" 420).1
    "flush failed" rfl

/-- On success, `normalizeToFile` leaves the destination holding the
normalized bytes with the mode of the opened (truncated-or-created) file. -/
theorem normalizeToFile_ok {C : Codec Nat} {pc : Bool} {oracle : IOOracle}
    {fs : FS} {input : List Nat} {dest : String} {mode : Nat} {fs2 : FS}
    (h : normalizeToFile C pc oracle fs input dest mode = (fs2, none)) :
    ∃ out, Normalize C pc input = .ok out ∧
      fs2 = fsSet dest ⟨out, (openTrunc fs dest mode).mode⟩ fs := by
  unfold normalizeToFile at h
  by_cases ho : oracle.openOk = true
  · simp only [ho, Bool.not_true, Bool.false_eq_true, if_false] at h
    cases hn : Normalize C pc input with
    | error e =>
      rw [hn] at h
      simp at h
    | ok out =>
      rw [hn] at h
      by_cases hf : oracle.flushOk = true
      · by_cases hc : oracle.closeOk = true
        · simp only [hf, hc, Bool.not_true, Bool.false_eq_true, if_false,
            Prod.mk.injEq] at h
          exact ⟨out, rfl, h.1.symm⟩
        · simp only [Bool.not_eq_true] at hc
          simp only [hf, hc, Bool.not_true, Bool.false_eq_true, if_false,
            Bool.not_false, if_true] at h
          simp at h
      · simp only [Bool.not_eq_true] at hf
        simp only [hf, Bool.not_false, if_true] at h
        simp at h
  · simp only [Bool.not_eq_true] at ho
    simp only [ho, Bool.not_false, if_true] at h
    simp at h

/-- C8 (amended): a successful `NormalizeFile` preserves the original mode
bits — unconditionally on the small-file path (truncating an existing file
keeps its mode), and on the large-file path provided no stale temporary file
already exists at the `.tmp_` path (an existing temp file would keep its own
mode through `O_CREATE|O_TRUNC` and be renamed over the original).  The
no-stale-temp hypothesis applies only when the file is over the size
threshold, i.e. only to invocations that take the large-file path. -/
theorem claim_C8_mode_preserved (C : Codec Nat) (pc : Bool) (oracle : IOOracle)
    (fs : FS) (name : String) (fd : FileData) (fs2 : FS)
    (hstat : fsGet name fs = some fd)
    (htmp : ¬ fd.data.length ≤ largeFileThreshold →
      fsGet (tmpName name) fs = none)
    (hrun : NormalizeFile C pc oracle fs name = (fs2, none)) :
    (fsGet name fs2).map FileData.mode = some fd.mode := by
  unfold NormalizeFile at hrun
  simp only [hstat] at hrun
  by_cases hw : fd.mode &&& 128 = 0
  · rw [if_pos hw] at hrun
    simp at hrun
  · rw [if_neg hw] at hrun
    by_cases hsize : fd.data.length ≤ largeFileThreshold
    · -- small path
      rw [if_pos hsize] at hrun
      unfold normalizeFileSmall at hrun
      by_cases hrd : oracle.readOk = true
      · simp only [hrd, Bool.not_true, Bool.false_eq_true, if_false, hstat] at hrun
        obtain ⟨out, _, hfs2⟩ := normalizeToFile_ok hrun
        subst hfs2
        rw [fsGet_fsSet_self]
        simp [openTrunc, hstat]
      · simp only [Bool.not_eq_true] at hrd
        simp only [hrd, Bool.not_false, if_true] at hrun
        simp at hrun
    · -- large path
      rw [if_neg hsize] at hrun
      unfold normalizeFileLarge at hrun
      by_cases hrd : oracle.readOk = true
      · simp only [hrd, Bool.not_true, Bool.false_eq_true, if_false, hstat] at hrun
        rcases hto : normalizeToFile C pc oracle fs fd.data (tmpName name) fd.mode
          with ⟨fsa, erra⟩
        rw [hto] at hrun
        cases erra with
        | some ea => simp at hrun
        | none =>
          by_cases hren : oracle.renameOk = true
          · simp only [hren, Bool.not_true, Bool.false_eq_true, if_false] at hrun
            obtain ⟨out, _, hfsa⟩ := normalizeToFile_ok hto
            have hmode : (openTrunc fs (tmpName name) fd.mode).mode = fd.mode := by
              simp [openTrunc, htmp hsize]
            have htget : fsGet (tmpName name) fsa
                = some ⟨out, (openTrunc fs (tmpName name) fd.mode).mode⟩ := by
              rw [hfsa, fsGet_fsSet_self]
            simp only [htget, Prod.mk.injEq] at hrun
            rw [← hrun.1, fsGet_fsSet_self]
            simp [hmode]
          · simp only [Bool.not_eq_true] at hren
            simp only [hren, Bool.not_false, if_true] at hrun
            simp at hrun
      · simp only [Bool.not_eq_true] at hrd
        simp only [hrd, Bool.not_false, if_true] at hrun
        simp at hrun

theorem claim_C8_mode_preserved_witness :
    (fsGet "b" (NormalizeFile emptyCodec false ⟨true, true, true, true, true, []⟩
        [("b", ⟨[5], 420⟩)] "b").1).map FileData.mode = some (420 : Nat) :=
  claim_C8_mode_preserved emptyCodec false ⟨true, true, true, true, true, []⟩
    [("b", ⟨[5], 420⟩)] "b" ⟨[5], 420⟩
    (NormalizeFile emptyCodec false ⟨true, true, true, true, true, []⟩
      [("b", ⟨[5], 420⟩)] "b").1
    rfl (fun _ => rfl) rfl

/-- C8 counterexample: a successful large-file `NormalizeFile` run over a
stale temporary file does NOT carry the original mode bits forward: the
temporary is opened with `O_CREATE|O_TRUNC`, which keeps the stale file's
mode 256, and the rename installs that mode over the original's 420. -/
theorem claim_C8_counterexample :
    (NormalizeFile emptyCodec false ⟨true, true, true, true, true, []⟩
      staleTmpFS "a").2 = none ∧
    (fsGet "a" staleTmpFS).map FileData.mode = some 420 ∧
    (fsGet "a" (NormalizeFile emptyCodec false ⟨true, true, true, true, true, []⟩
      staleTmpFS "a").1).map FileData.mode = some 256 := by
  have hlen : (List.replicate 1048577 (0 : Nat)).length = 1048577 :=
    List.length_replicate _ _
  have hrun : NormalizeFile emptyCodec false ⟨true, true, true, true, true, []⟩
      staleTmpFS "a"
      = (fsSet "a" ⟨[], 256⟩ (fsErase ".tmp_a"
          (fsSet ".tmp_a" ⟨[], 256⟩ staleTmpFS)), none) := by
    unfold NormalizeFile
    rw [show fsGet "a" staleTmpFS
      = some ⟨List.replicate 1048577 0, 420⟩ from rfl]
    simp only [hlen]
    rw [if_neg (by decide), if_neg (by decide)]
    rfl
  rw [hrun]
  exact ⟨rfl, rfl, rfl⟩
